import Mathlib

/-
Verification of the pipe streaming library: a shallow embedding of its data
model and operations (Region, pooledBuffer, the reader-backed source, the
positional-write sink and writer pool, the fan combinator and the pipe
orchestrator's wiring and arbitration), with theorems settling the spec's
claims about them.

Conventions: bytes are natural numbers, byte buffers are lists of bytes,
64-bit offsets are integers (with explicit two's-complement wrap-around
where the Go code does int64 arithmetic), error values are abstracted to
natural-number codes, and a nil-or-error terminal value is an Option of
such a code (none = nil).  Channels carrying Regions are modelled by the
sequence of values that crosses them; the capacity-1 terminal channel by
the list of values the stage attempts to send on it, in order.
-/

/-- Region (src/unnamed/part_001:50-53): a contiguous chunk of stream data
together with its absolute offset in the overall stream (Go fields
Data []byte and Off int64). -/
structure Region where
  Data : List Nat
  Off : Int
  deriving DecidableEq

/-- Two's-complement wrap-around of 64-bit signed integer arithmetic, applied
wherever the Go source adds to an int64. -/
def wrap64 (x : Int) : Int := (x + 2 ^ 63) % 2 ^ 64 - 2 ^ 63

/-- State of the channel-based buffer pool (src/io/buffer.go:16-19): the
buffers queued in the pool channel (head = next to be received), the channel
capacity poolSize, and the configured bufferSize. -/
structure pooledBuffer where
  pool : List (List Nat)
  capacity : Nat
  size : Nat
  deriving DecidableEq

/-- pooledBuffer.Get (src/io/buffer.go:28-35): a select with a default branch,
so it never blocks; it receives a queued buffer when one is available and
otherwise allocates a fresh zeroed buffer of length size
(make([]byte, b.size)). Returns the buffer and the new pool state. -/
def pooledBuffer.Get : pooledBuffer → List Nat × pooledBuffer
  | ⟨[], c, s⟩ => (List.replicate s 0, ⟨[], c, s⟩)
  | ⟨b :: q, c, s⟩ => (b, ⟨q, c, s⟩)

/-- pooledBuffer.Put (src/io/buffer.go:21-26): a select with a default branch,
so it never blocks; it enqueues the given buffer when the channel has spare
capacity and otherwise silently drops it, leaving the pool unchanged. -/
def pooledBuffer.Put : pooledBuffer → List Nat → pooledBuffer
  | ⟨q, c, s⟩, b => if q.length < c then ⟨q ++ [b], c, s⟩ else ⟨q, c, s⟩

/-- Outcome of one WriteAt call of an io.WriterAt: either n bytes were
written, or the call failed with error code e (a WriteAt that reports an
error has its count ignored by the source, src/io/write.go:45-49). -/
inductive WriteStep where
  | wrote (n : Nat)
  | fail (e : Nat)
  deriving DecidableEq

/-- The short-write retry loop of sink.Read (src/io/write.go:80-88), which is
also the body of the per-Region write task of pool.Read
(src/io/write.go:43-51):

    written := 0
    for written < len(data.Data) {
      n, err := w.w.WriteAt(data.Data[written:], data.Off)
      if err != nil { errs <- ...; return }
      written += n
    }

The oracle lists the outcomes of the successive WriteAt calls, which models
an arbitrary (stateful) writer. The result carries the offsets passed to
WriteAt in call order — the source passes data.Off unchanged on every call —
then none for a fully flushed region or some e for a hard write error, then
the unconsumed rest of the oracle. The whole result is none when the oracle
runs out while the loop still wants to write (e.g. a writer forever
reporting 0 bytes makes the Go loop spin). -/
def writeFull (data : List Nat) (off : Int) : Nat → List WriteStep →
    Option (List Int × Option Nat × List WriteStep)
  | written, [] =>
    if written < data.length then none else some ([], none, [])
  | written, step :: rest =>
    if written < data.length then
      match step with
      | WriteStep.fail e => some ([off], some e, rest)
      | WriteStep.wrote n =>
        match writeFull data off (written + n) rest with
        | none => none
        | some (calls, res, rem) => some (off :: calls, res, rem)
    else some ([], none, step :: rest)

/-- Modelled from the spec: the retry loop exactly as claim C1 words it, each
positional write issued at the advanced absolute offset
region.offset + bytesWrittenSoFar. Stated only for comparison with
writeFull, which embeds the source code. -/
def writeFullClaimed (data : List Nat) (off : Int) : Nat → List WriteStep →
    Option (List Int × Option Nat × List WriteStep)
  | written, [] =>
    if written < data.length then none else some ([], none, [])
  | written, step :: rest =>
    if written < data.length then
      match step with
      | WriteStep.fail e => some ([off + (written : Int)], some e, rest)
      | WriteStep.wrote n =>
        match writeFullClaimed data off (written + n) rest with
        | none => none
        | some (calls, res, rem) => some ((off + (written : Int)) :: calls, res, rem)
    else some ([], none, step :: rest)

/-- sink.Read (src/io/write.go:72-94). The regions list is what the upstream
stage sends on the source channel before closing it; cancel i models whether
ctx.Err() is non-nil when the i-th received value is inspected (the loop
breaks after the receive, dropping that region); the oracle feeds the WriteAt
calls of writeFull across regions. Returns the list of terminal values the
consumer sends on errs (none = nil), paired with whether a hard write error
occurred; the whole result is none when an oracle runs out mid-write. On a
hard error the consumer sends the error and returns at once; otherwise it
returns the buffer to its pool (not tracked here), and after the loop exits —
closed channel or cancellation alike — it sends a single nil. -/
def sinkRun (cancel : Nat → Bool) : Nat → List Region → List WriteStep →
    Option (List (Option Nat) × Bool)
  | _, [], _ => some ([Option.none], false)
  | i, r :: rest, oracle =>
    if cancel i then some ([Option.none], false)
    else
      match writeFull r.Data r.Off 0 oracle with
      | none => none
      | some (_, some e, _) => some ([Option.some e], true)
      | some (_, none, rem) => sinkRun cancel (i + 1) rest rem

/-- The outcome of one per-Region write task spawned by pool.Read
(src/io/write.go:42-56), with its own oracle of WriteAt outcomes: none when
the task flushed the region (then it releases its writer and buffer and calls
waiter.Done), some e when a write failed (then the task sends e on errs and
returns WITHOUT calling waiter.Done). The outer none is an oracle running
out mid-write. -/
def taskOutcome (r : Region) (oracle : List WriteStep) : Option (Option Nat) :=
  match writeFull r.Data r.Off 0 oracle with
  | none => none
  | some (_, res, _) => some res

/-- The outcomes of all write tasks of one pool.Read run, in region order
(none inside = flushed, some e = failed with e). -/
def taskOutcomes : List (Region × List WriteStep) → Option (List (Option Nat))
  | [] => some []
  | t :: rest =>
    match taskOutcome t.1 t.2, taskOutcomes rest with
    | some res, some os => some (res :: os)
    | _, _ => none

/-- pool.Read (src/io/write.go:30-61): tasks pairs each region received from
the source channel with the WriteAt oracle of the task spawned for it (the
model assumes enough pool writers for every received region's task to run).
Each failing task sends its error on errs; because a failing task skips
waiter.Done, waiter.Wait() never returns once any task has failed, so the
trailing nil send (src/io/write.go:60) is reached exactly when no task
failed. Returns (the terminal values sent on errs, the number of failed
tasks); failing tasks are listed in region order. -/
def poolRun (tasks : List (Region × List WriteStep)) :
    Option (List (Option Nat) × Nat) :=
  match taskOutcomes tasks with
  | none => none
  | some os =>
    let fails := os.filterMap id
    some (fails.map Option.some ++ (if fails.isEmpty then [Option.none] else []),
      fails.length)

/-- Outcome of one reader.Read call inside source.Write (src/io/source.go:36):
chunk bs is a successful read of the bytes bs into the buffer prefix
(n = bs.length, err = nil); eofWith bs is a read returning n = bs.length
together with io.EOF; readErr e is a read failing with a non-EOF error. -/
inductive ReadStep where
  | chunk (bs : List Nat)
  | eofWith (bs : List Nat)
  | readErr (e : Nat)
  deriving DecidableEq

/-- The loop body of source.Write (src/io/source.go:28-54) run without
cancellation, returning (the Regions sent on the sink channel in order, the
errors sent on errs). Each iteration takes the next ReadStep: a non-EOF
error is sent on errs and the function returns; io.EOF or n == 0 sets done;
n == 0 breaks before emitting; otherwise Region{Data: data[:n], Off: b.off}
is emitted and b.off advances by n (int64 arithmetic, hence wrap64). An
exhausted step list stands for a clean end of stream. -/
def sourceWriteGo (off : Int) : List ReadStep → List Region × List Nat
  | [] => ([], [])
  | ReadStep.chunk bs :: rest =>
    if bs.length = 0 then ([], [])
    else
      let p := sourceWriteGo (wrap64 (off + (bs.length : Int))) rest
      (⟨bs, off⟩ :: p.1, p.2)
  | ReadStep.eofWith bs :: _ =>
    if bs.length = 0 then ([], []) else ([⟨bs, off⟩], [])
  | ReadStep.readErr e :: _ => ([], [e])

/-- Result of one source.Write run: the Regions emitted on the sink channel,
whether the sink channel was closed, and the errors sent on errs. -/
structure SourceRun where
  regions : List Region
  closed : Bool
  errSends : List Nat
  deriving DecidableEq

/-- source.Write (src/io/source.go:28-54) from base offset off against the
given stream of read outcomes. The defer close(sink) at src/io/source.go:29
runs on every exit path — normal end of stream and read failure alike — so
closed is true for every run. -/
def sourceWrite (off : Int) (steps : List ReadStep) : SourceRun :=
  ⟨(sourceWriteGo off steps).1, true, (sourceWriteGo off steps).2⟩

/-- The first non-EOF read error the source.Write loop reaches before a
terminating step (clean EOF, an empty read, or the end of the stream),
if any. -/
def firstFailure : List ReadStep → Option Nat
  | [] => none
  | ReadStep.chunk bs :: rest => if bs.length = 0 then none else firstFailure rest
  | ReadStep.eofWith _ :: _ => none
  | ReadStep.readErr e :: _ => some e

/-- Modelled from the spec: the Region sequence claim C6 describes — the i-th
Region carries the i-th chunk of bytes read, at offset equal to the base
offset plus the lengths of all previously emitted Regions (exact integer
arithmetic, no wrap-around). Stated for comparison with sourceWrite. -/
def expectedRegions (off : Int) : List (List Nat) → List Region
  | [] => []
  | bs :: rest => ⟨bs, off⟩ :: expectedRegions (off + (bs.length : Int)) rest

/-- Total byte length of a list of chunks. -/
def sumLens (l : List (List Nat)) : Nat := (l.map List.length).sum

/-- One call the wiring loop of Pipe.open (src/unnamed/part_001:124-139) makes
to a valve: which valve was asked (its index in p.valves), which channel was
passed to it as its output, and which channel it returned as its input.
Channels are identified by creation order: connectors[0] is channel 0
(created first), and each valve's Open allocates the next identifier. -/
structure OpenCall where
  valveIdx : Nat
  outCh : Nat
  inCh : Nat
  deriving DecidableEq

/-- The loop of Pipe.open (src/unnamed/part_001:128-136): back counts the
remaining iterations (the valve index of the current iteration), out is the
previously produced channel, i the next fresh channel identifier. Returns
(the connectors written at indices 1.., the calls in the order they are
made). -/
def openGo : Nat → Nat → Nat → List Nat × List OpenCall
  | 0, _, _ => ([], [])
  | back + 1, out, i =>
    let p := openGo back i (i + 1)
    (i :: p.1, ⟨back, out, i⟩ :: p.2)

/-- Pipe.open (src/unnamed/part_001:124-139) for a pipe with n valves:
connectors[0] is allocated first (the consumer-adjacent channel), then the
loop walks the valves in reverse order, passing each the previously produced
channel as its output and recording the channel it returns. Result: (the
connectors list, the valve calls in order). -/
def openModel (n : Nat) : List Nat × List OpenCall :=
  (0 :: (openGo n 0 1).1, (openGo n 0 1).2)

/-- The channel Pipe.Pipe starts the producer on:
first := connectors[len(connectors)-1] (src/unnamed/part_001:106). -/
def pipeSourceChan (n : Nat) : Nat :=
  (openModel n).1.getD ((openModel n).1.length - 1) 0

/-- The channel Pipe.Pipe has the consumer read:
last := connectors[0] (src/unnamed/part_001:110). -/
def pipeSinkChan (n : Nat) : Nat :=
  (openModel n).1.getD 0 0

/-- The first event the final select of Pipe.Pipe
(src/unnamed/part_001:115-121) observes: either a value taken from the
single-slot terminal channel done (none = nil), or the caller context's
expiry with cancellation error ce. -/
inductive PipeEvent where
  | terminal (e : Option Nat)
  | ctxDone (ce : Nat)
  deriving DecidableEq

/-- The completion arbitration of Pipe.Pipe (src/unnamed/part_001:90-122):
given the first event, returns (the error Pipe returns to the caller,
whether the derived context's cancel function was triggered). On a terminal
signal, cancel() runs explicitly before the received value is returned; on
context expiry, ctx.Err() is returned and the deferred cancel()
(src/unnamed/part_001:95) still triggers cancellation. -/
def pipeSelect : PipeEvent → Option Nat × Bool
  | PipeEvent.terminal e => (e, true)
  | PipeEvent.ctxDone ce => (Option.some ce, true)

/-- One run of the fan-in of fan.Write (src/source.go:24-36): ls holds the
Region sequence each nested producer pushes through its private channel, and
sched is the order in which the forwarding tasks (fan.pass,
src/source.go:38-46) get to deliver their next Region onto the shared sink.
Each index of sched names the forwarder that delivers next; the run is valid
(result some) only when every pick has a Region available and the schedule
drains every private channel, which is what waiter.Wait demands before the
shared sink can be closed. -/
def mergeRun {α : Type} : List (List α) → List Nat → Option (List α)
  | ls, [] => if ls.all List.isEmpty then some [] else none
  | ls, i :: sched =>
    match ls.get? i with
    | some (x :: xs) =>
      match mergeRun (ls.set i xs) sched with
      | some out => some (x :: out)
      | none => none
    | _ => none

/-- An observable event on the fan's shared output channel: a Region
delivered, or the channel being closed. -/
inductive FanEv where
  | deliver (r : Region)
  | close
  deriving DecidableEq

/-- fan.Write (src/source.go:16-36) as the downstream stage observes it: the
delivered Regions of a complete run followed by the close of the shared sink,
which the deferred close(sink) performs only after waiter.Wait has seen every
forwarding task finish. -/
def fanWrite (ls : List (List Region)) (sched : List Nat) : Option (List FanEv) :=
  match mergeRun ls sched with
  | some out => some (out.map FanEv.deliver ++ [FanEv.close])
  | none => none

/-! ## Helper lemmas -/

/-- wrap64 is the identity on values already in the int64 range. -/
theorem wrap64_eq_self (x : Int) (h1 : -(2 ^ 63) ≤ x) (h2 : x < 2 ^ 63) :
    wrap64 x = x := by
  unfold wrap64
  have ha : (0 : Int) ≤ x + 2 ^ 63 := by linarith
  have hb : x + 2 ^ 63 < 2 ^ 64 := by
    have : (2 : Int) ^ 64 = 2 ^ 63 + 2 ^ 63 := by norm_num
    linarith
  rw [Int.emod_eq_of_lt ha hb]
  ring

/-- Every defined sink.Read run sends exactly one of two terminal values:
a single nil with no write error, or a single error after a write failure. -/
theorem sinkRun_eq_cases (cancel : Nat → Bool) (regions : List Region) :
    ∀ (i : Nat) (oracle : List WriteStep) (p : List (Option Nat) × Bool),
      sinkRun cancel i regions oracle = some p →
      p = ([Option.none], false) ∨ ∃ e, p = ([Option.some e], true) := by
  induction regions with
  | nil =>
    intro i oracle p h
    exact Or.inl (Option.some.inj h).symm
  | cons r rest ih =>
    intro i oracle p h
    rw [sinkRun] at h
    split at h
    · exact Or.inl (Option.some.inj h).symm
    · cases hw : writeFull r.Data r.Off 0 oracle with
      | none => rw [hw] at h; exact Option.noConfusion h
      | some trip =>
        obtain ⟨calls, res, rem⟩ := trip
        rw [hw] at h
        cases res with
        | none => exact ih (i + 1) rem p h
        | some e => exact Or.inr ⟨e, (Option.some.inj h).symm⟩

/-- C3 (amended): on an unrecoverable read failure the reader-backed producer
sends exactly one error on the terminal channel and stops emitting, but the
output channel is closed on every exit path — the deferred close at
src/io/source.go:29 runs on the failure path too, not only on the normal
end-of-stream path. Formally: every run has closed = true, and the error
sends are exactly the first reachable read failure (one error on failure,
none otherwise). -/
theorem sourceWrite_errSends (off : Int) (steps : List ReadStep) :
    (sourceWrite off steps).closed = true
    ∧ (sourceWrite off steps).errSends = (firstFailure steps).toList := by
  refine ⟨rfl, ?_⟩
  show (sourceWriteGo off steps).2 = (firstFailure steps).toList
  induction steps generalizing off with
  | nil => rfl
  | cons step rest ih =>
    cases step with
    | chunk bs =>
      by_cases hb : bs.length = 0
      · simp [sourceWriteGo, firstFailure, hb]
      · simp only [sourceWriteGo, firstFailure, if_neg hb]
        exact ih _
    | eofWith bs =>
      by_cases hb : bs.length = 0 <;> simp [sourceWriteGo, firstFailure, hb]
    | readErr e => rfl

/-- On a stream of nonempty successful reads whose offsets stay inside the
int64 range, the source loop emits exactly the spec's expected Regions and
sends no error, for any trailing steps that contribute nothing (such as the
empty stream or a clean end-of-stream read). -/
theorem sourceWriteGo_chunks (chunks : List (List Nat)) :
    ∀ (off : Int) (tail : List ReadStep),
      (∀ bs ∈ chunks, bs ≠ []) → -(2 ^ 63) ≤ off →
      off + (sumLens chunks : Int) < 2 ^ 63 →
      sourceWriteGo (off + (sumLens chunks : Int)) tail = ([], []) →
      sourceWriteGo off (chunks.map ReadStep.chunk ++ tail)
        = (expectedRegions off chunks, []) := by
  induction chunks with
  | nil =>
    intro off tail _ _ _ htail
    have h0 : off + ((sumLens [] : Nat) : Int) = off := by simp [sumLens]
    rw [h0] at htail
    simpa [expectedRegions] using htail
  | cons bs rest ih =>
    intro off tail hne h2 h3 htail
    have hbs : bs ≠ [] := hne bs (by simp)
    have hlen : ¬ bs.length = 0 := by simpa [List.length_eq_zero] using hbs
    have hsum : (sumLens (bs :: rest) : Int) = (bs.length : Int) + (sumLens rest : Int) := by
      simp [sumLens]
    have hrest0 : (0 : Int) ≤ (sumLens rest : Int) := Int.natCast_nonneg _
    have hlen0 : (0 : Int) ≤ (bs.length : Int) := Int.natCast_nonneg _
    have h2b : -(2 ^ 63) ≤ off + (bs.length : Int) := by linarith
    have h3b : off + (bs.length : Int) + (sumLens rest : Int) < 2 ^ 63 := by
      rw [hsum] at h3; linarith
    have hw : wrap64 (off + (bs.length : Int)) = off + (bs.length : Int) :=
      wrap64_eq_self _ h2b (by linarith)
    have htail2 : sourceWriteGo (off + (bs.length : Int) + (sumLens rest : Int)) tail
        = ([], []) := by
      have : off + ((sumLens (bs :: rest) : Nat) : Int)
          = off + (bs.length : Int) + (sumLens rest : Int) := by rw [hsum]; ring
      rw [this] at htail; exact htail
    have hrec := ih (off + (bs.length : Int)) tail
      (fun b hb => hne b (by simp [hb])) h2b (by linarith) htail2
    simp only [List.map_cons, List.cons_append, sourceWriteGo, if_neg hlen, hw,
      expectedRegions, List.append_eq, hrec]

/-- The i-th expected Region carries the i-th chunk at offset equal to the
base offset plus the total length of the preceding chunks. -/
theorem expectedRegions_get (chunks : List (List Nat)) :
    ∀ (off : Int) (i : Nat) (bs : List Nat), chunks.get? i = some bs →
      (expectedRegions off chunks).get? i
        = some ⟨bs, off + (sumLens (chunks.take i) : Int)⟩ := by
  induction chunks with
  | nil => intro off i bs h; simp at h
  | cons b rest ih =>
    intro off i bs h
    cases i with
    | zero =>
      obtain rfl : b = bs := by simpa using h
      simp [expectedRegions, sumLens]
    | succ n =>
      have hr : rest.get? n = some bs := by simpa using h
      have := ih (off + (b.length : Int)) n bs hr
      have harith : off + (b.length : Int) + (sumLens (rest.take n) : Int)
          = off + (sumLens ((b :: rest).take (n + 1)) : Int) := by
        simp only [List.take_succ_cons, sumLens, List.map_cons, List.sum_cons]
        push_cast
        ring
      simp only [expectedRegions, List.get?]
      rw [this, harith]

/-- Taking the head of the i-th inner list commutes with join, up to
permutation. -/
theorem join_perm_set {α : Type} (ls : List (List α)) :
    ∀ (i : Nat) (x : α) (xs : List α), ls.get? i = some (x :: xs) →
      List.Perm ls.join (x :: (ls.set i xs).join) := by
  induction ls with
  | nil => intro i x xs h; simp at h
  | cons l rest ih =>
    intro i x xs h
    cases i with
    | zero =>
      obtain rfl : l = x :: xs := by simpa using h
      simp [List.join]
    | succ n =>
      have hr : rest.get? n = some (x :: xs) := by simpa using h
      have := ih n x xs hr
      simp only [List.set, List.join]
      exact (this.append_left l).trans List.perm_middle

/-- A complete fan run delivers a permutation of everything the nested
producers emitted. -/
theorem mergeRun_perm {α : Type} (sched : List Nat) :
    ∀ (ls : List (List α)) (out : List α), mergeRun ls sched = some out →
      List.Perm out ls.join := by
  induction sched with
  | nil =>
    intro ls out h
    rw [mergeRun] at h
    split at h
    · obtain rfl : ([] : List α) = out := Option.some.inj h
      have hnil : ls.join = [] := by
        rw [List.join_eq_nil]
        intro l hl
        have := List.all_eq_true.mp (by assumption) l hl
        simpa [List.isEmpty_iff] using this
      rw [hnil]
    · exact Option.noConfusion h
  | cons i sched ih =>
    intro ls out h
    rw [mergeRun] at h
    cases hg : ls.get? i with
    | none => simp only [hg] at h; exact Option.noConfusion h
    | some l =>
      cases l with
      | nil => simp only [hg] at h; exact Option.noConfusion h
      | cons x xs =>
        simp only [hg] at h
        cases hm : mergeRun (ls.set i xs) sched with
        | none => simp only [hm] at h; exact Option.noConfusion h
        | some out2 =>
          simp only [hm, Option.some.injEq] at h
          obtain rfl : x :: out2 = out := h
          exact ((ih _ out2 hm).cons x).trans (join_perm_set ls i x xs hg).symm

/-- Each nested producer's own Region sequence appears in the delivered
output of a complete fan run in its original relative order. -/
theorem mergeRun_sublist {α : Type} (sched : List Nat) :
    ∀ (ls : List (List α)) (out : List α), mergeRun ls sched = some out →
      ∀ (j : Nat) (l : List α), ls.get? j = some l → List.Sublist l out := by
  induction sched with
  | nil =>
    intro ls out h j l hj
    rw [mergeRun] at h
    split at h
    · obtain rfl : ([] : List α) = out := Option.some.inj h
      have hall : ls.all List.isEmpty = true := by assumption
      have : l = [] := by
        have := List.all_eq_true.mp hall l (List.get?_mem hj)
        simpa [List.isEmpty_iff] using this
      simp [this]
    · exact Option.noConfusion h
  | cons i sched ih =>
    intro ls out h j l hj
    rw [mergeRun] at h
    cases hg : ls.get? i with
    | none => simp only [hg] at h; exact Option.noConfusion h
    | some l2 =>
      cases l2 with
      | nil => simp only [hg] at h; exact Option.noConfusion h
      | cons x xs =>
        simp only [hg] at h
        cases hm : mergeRun (ls.set i xs) sched with
        | none => simp only [hm] at h; exact Option.noConfusion h
        | some out2 =>
          simp only [hm, Option.some.injEq] at h
          obtain rfl : x :: out2 = out := h
          by_cases hij : j = i
          · subst hij
            obtain rfl : l = x :: xs := by
              have := hg.symm.trans hj
              exact (Option.some.inj this).symm
            have hlt : j < ls.length := by
              rcases List.get?_eq_some.mp hj with ⟨hl, _⟩
              exact hl
            have hset : (ls.set j xs).get? j = some xs :=
              List.get?_set_eq_of_lt xs hlt
            exact (ih _ out2 hm j xs hset).cons₂ x
          · have hset : (ls.set i xs).get? j = ls.get? j :=
              List.get?_set_ne xs ls (fun hc => hij hc.symm)
            exact (ih _ out2 hm j l (hset.trans hj)).cons x

/-- Closed form for the wiring loop: starting with previous channel i and
fresh identifier i + 1, the k remaining iterations return the channels
i + 1 .. i + k in creation order and call the valves in reverse index order,
each receiving the previously produced channel as its output. -/
theorem openGo_eq (k : Nat) : ∀ i : Nat,
    openGo k i (i + 1) =
      (List.range' (i + 1) k,
        (List.range k).map (fun j => OpenCall.mk (k - 1 - j) (i + j) (i + j + 1))) := by
  induction k with
  | zero => intro i; rfl
  | succ k ih =>
    intro i
    rw [openGo]
    rw [ih (i + 1)]
    refine congrArg₂ Prod.mk ?_ ?_
    · rfl
    · rw [List.range_succ_eq_map, List.map_cons, List.map_map]
      refine congrArg₂ List.cons ?_ ?_
      · simp
      · refine List.map_congr_left ?_
        intro j hj
        simp only [Function.comp, OpenCall.mk.injEq]
        omega

/-- Every defined pool.Read run sends max 1 k terminal values, where k is the
number of failed write tasks: one error per failing task, plus the trailing
nil exactly when no task failed. -/
theorem poolRun_sends_length (tasks : List (Region × List WriteStep))
    (q : List (Option Nat) × Nat) (h : poolRun tasks = some q) :
    q.1.length = max 1 q.2 := by
  rw [poolRun] at h
  cases ho : taskOutcomes tasks with
  | none => rw [ho] at h; exact Option.noConfusion h
  | some os =>
    obtain ⟨sends, k⟩ := q
    simp only [ho, Option.some.injEq, Prod.mk.injEq] at h
    obtain ⟨hs, hk⟩ := h
    subst hs
    subst hk
    cases hf : os.filterMap id with
    | nil => simp [hf]
    | cons e t =>
      simp only [hf, List.isEmpty_cons, if_neg]
      simp [List.length_append]

/-! ## Claims -/

/-- C1: the spec claims the short-write retry is issued at the advanced
absolute offset region.offset + bytesWrittenSoFar until the Region is
flushed. The code (src/io/write.go:82 and src/io/write.go:45) passes
data.Off unchanged to every WriteAt call while advancing only the slice:
on Region{Data: [10, 20], Off: 5} against a writer that accepts one byte
per call, the code issues its two writes at offsets 5, 5, whereas the
claimed behaviour (writeFullClaimed) issues them at 5, 6. The tail byte is
rewritten over the head's position and offset 6 is never written, which
breaks the repository's own round-trip fidelity check for any genuinely
short-writing WriterAt. -/
theorem short_write_retry_offset_bug :
    writeFull [10, 20] 5 0 [WriteStep.wrote 1, WriteStep.wrote 1]
      = some ([5, 5], Option.none, [])
    ∧ writeFullClaimed [10, 20] 5 0 [WriteStep.wrote 1, WriteStep.wrote 1]
      = some ([5, 6], Option.none, [])
    ∧ ([5, 5] : List Int) ≠ [5, 6] :=
  ⟨rfl, rfl, by decide⟩

/-- C2 (counterexample): a writer-pool run whose two write tasks both fail
places two errors on the terminal channel — each failing task at
src/io/write.go:47 sends its own error — falsifying "never more than one". -/
theorem pool_two_failures_two_sends :
    poolRun [(⟨[1], 0⟩, [WriteStep.fail 3]), (⟨[2], 1⟩, [WriteStep.fail 4])]
      = some ([Option.some 3, Option.some 4], 2)
    ∧ ([Option.some 3, Option.some 4] : List (Option Nat)).length ≠ 1 :=
  ⟨rfl, by decide⟩

/-- C2 (amended): the single-writer sink places exactly one terminal value on
every defined run (nil after a closed channel or cancellation, the error
after the first write failure). The writer-pool consumer places exactly one
terminal value when at most one of its write tasks fails: a single nil on
full success, a single error when exactly one task fails (the failing task
skips waiter.Done, so the trailing nil is never reached); with two or more
failing tasks it places one error per failure. -/
theorem consumers_single_terminal_send (cancel : Nat → Bool) (i : Nat)
    (regions : List Region) (oracle : List WriteStep)
    (tasks : List (Region × List WriteStep))
    (p : List (Option Nat) × Bool) (q : List (Option Nat) × Nat)
    (h1 : sinkRun cancel i regions oracle = some p)
    (h2 : poolRun tasks = some q) (h3 : q.2 ≤ 1) :
    p.1.length = 1 ∧ q.1.length = 1 := by
  refine ⟨?_, ?_⟩
  · rcases sinkRun_eq_cases cancel regions i oracle p h1 with h | ⟨e, h⟩ <;> simp [h]
  · have := poolRun_sends_length tasks q h2
    omega

/-- Witness for consumers_single_terminal_send: a sink run over one region
that flushes in one write, and a pool run with exactly one failing task. -/
theorem consumers_single_terminal_send_witness :
    (sinkRun (fun _ => false) 0 [⟨[1], 0⟩] [WriteStep.wrote 1]
        = some ([Option.none], false)
      ∧ poolRun [(⟨[2], 3⟩, [WriteStep.fail 9])] = some ([Option.some 9], 1)
      ∧ ((([Option.some 9] : List (Option Nat)), 1).2 ≤ 1))
    ∧ (([Option.none] : List (Option Nat)), false).1.length = 1
      ∧ (([Option.some 9] : List (Option Nat)), 1).1.length = 1 :=
  ⟨⟨rfl, rfl, by decide⟩,
    consumers_single_terminal_send (fun _ => false) 0 [⟨[1], 0⟩] [WriteStep.wrote 1]
      [(⟨[2], 3⟩, [WriteStep.fail 9])] ([Option.none], false) ([Option.some 9], 1)
      rfl rfl (by decide)⟩

/-- C3 (counterexample): on a stream whose first read fails with error 7, the
producer sends exactly one error, but the output channel IS closed on this
path — the deferred close(sink) at src/io/source.go:29 runs on every exit —
so "stops without closing its output channel" is false on the code. -/
theorem source_error_path_closes_output :
    (sourceWrite 0 [ReadStep.readErr 7]).errSends = [7]
    ∧ (sourceWrite 0 [ReadStep.readErr 7]).closed = true :=
  ⟨rfl, rfl⟩

/-- C4 (counterexample): with bufferSize 4, a Put of the 2-byte slice [1, 2]
— exactly the length-n region slice a consumer returns at
src/io/write.go:90 — followed by a Get returns that 2-byte buffer, so Get
does not guarantee length at least bufferSize across Put/Get sequences. -/
theorem pool_get_short_buffer :
    ((pooledBuffer.Put ⟨[], 8, 4⟩ [1, 2]).Get).1 = [1, 2]
    ∧ ¬ 4 ≤ ((pooledBuffer.Put ⟨[], 8, 4⟩ [1, 2]).Get).1.length := by
  decide

/-- C4 (amended): a Get that misses the queue allocates a fresh buffer of
length exactly bufferSize, zeroed and ready for overwrite; a Get that hits
the queue returns the queued buffer exactly as it was Put, so its length is
whatever the caller last Put — possibly shorter than bufferSize. -/
theorem buffer_get_length_policy (c s : Nat) (b : List Nat)
    (q : List (List Nat)) :
    (pooledBuffer.Get ⟨[], c, s⟩).1.length = s
    ∧ (pooledBuffer.Get ⟨[], c, s⟩).1 = List.replicate s 0
    ∧ (pooledBuffer.Get ⟨b :: q, c, s⟩).1 = b :=
  ⟨by simp [pooledBuffer.Get], rfl, rfl⟩

/-- C5: the orchestrator's entry point blocks on the first of the terminal
signal and the context's expiry; it returns exactly the first terminal value
taken (so nil iff that value is nil), returns the cancellation error on
expiry, and triggers cancellation in either case upon observing the first
result. -/
theorem pipe_arbitration (e : Option Nat) (ce : Nat) :
    pipeSelect (PipeEvent.terminal e) = (e, true)
    ∧ pipeSelect (PipeEvent.ctxDone ce) = (Option.some ce, true)
    ∧ ((pipeSelect (PipeEvent.terminal e)).1 = Option.none ↔ e = Option.none) :=
  ⟨rfl, rfl, Iff.rfl⟩

/-- C6: over a stream of successful nonempty reads (with offsets inside the
int64 range so the int64 accumulation does not wrap), the reader-backed
producer emits exactly one Region per read, carrying the bytes just read at
offset equal to the base offset plus the total length of the previously
emitted Regions; the run sends no error and closes its output, and a
trailing end-of-stream read with zero bytes changes nothing (stop, close,
success). -/
theorem source_emits_sequential_regions (off : Int) (chunks : List (List Nat))
    (h1 : ∀ bs ∈ chunks, bs ≠ []) (h2 : -(2 ^ 63) ≤ off)
    (h3 : off + (sumLens chunks : Int) < 2 ^ 63) :
    sourceWrite off (chunks.map ReadStep.chunk)
      = ⟨expectedRegions off chunks, true, []⟩
    ∧ sourceWrite off (chunks.map ReadStep.chunk ++ [ReadStep.eofWith []])
      = ⟨expectedRegions off chunks, true, []⟩
    ∧ ∀ (i : Nat) (bs : List Nat), chunks.get? i = some bs →
        (sourceWrite off (chunks.map ReadStep.chunk)).regions.get? i
          = some ⟨bs, off + (sumLens (chunks.take i) : Int)⟩ := by
  have hmain := sourceWriteGo_chunks chunks off [] h1 h2 h3 rfl
  have heof := sourceWriteGo_chunks chunks off [ReadStep.eofWith []] h1 h2 h3 rfl
  rw [List.append_nil] at hmain
  have hreg : (sourceWrite off (chunks.map ReadStep.chunk)).regions
      = expectedRegions off chunks := by
    simp [sourceWrite, hmain]
  refine ⟨by simp [sourceWrite, hmain], by simp [sourceWrite, heof], ?_⟩
  intro i bs hi
  rw [hreg]
  exact expectedRegions_get chunks off i bs hi

/-- Witness for source_emits_sequential_regions: two reads of 3 and 2 bytes
from base offset 10 emit Regions at offsets 10 and 13. -/
theorem source_emits_sequential_regions_witness :
    ((∀ bs ∈ ([[1, 2, 3], [4, 5]] : List (List Nat)), bs ≠ [])
      ∧ -(2 ^ 63) ≤ (10 : Int)
      ∧ (10 : Int) + (sumLens [[1, 2, 3], [4, 5]] : Int) < 2 ^ 63)
    ∧ (sourceWrite 10 ([[1, 2, 3], [4, 5]].map ReadStep.chunk)
        = ⟨expectedRegions 10 [[1, 2, 3], [4, 5]], true, []⟩
      ∧ sourceWrite 10 ([[1, 2, 3], [4, 5]].map ReadStep.chunk ++ [ReadStep.eofWith []])
        = ⟨expectedRegions 10 [[1, 2, 3], [4, 5]], true, []⟩
      ∧ ∀ (i : Nat) (bs : List Nat),
          ([[1, 2, 3], [4, 5]] : List (List Nat)).get? i = some bs →
          (sourceWrite 10 ([[1, 2, 3], [4, 5]].map ReadStep.chunk)).regions.get? i
            = some ⟨bs, 10 + (sumLens ([[1, 2, 3], [4, 5]].take i) : Int)⟩) :=
  ⟨⟨by decide, by decide, by decide⟩,
    source_emits_sequential_regions 10 [[1, 2, 3], [4, 5]]
      (by decide) (by decide) (by decide)⟩

/-- C7: for n transforms the wiring step allocates n + 1 hand-off channels;
the consumer-adjacent channel (identifier 0) is created first, then the
valves are asked in reverse index order (valve n-1 first, valve 0 last),
each receiving the previously produced channel as its output and returning
the next freshly created channel; the connectors list runs from
consumer-side (index 0) to producer-side (index n), the producer is started
on the producer-side channel and the consumer reads the consumer-adjacent
one. -/
theorem wiring_structure (n : Nat) :
    (openModel n).1.length = n + 1
    ∧ (openModel n).1 = List.range (n + 1)
    ∧ (openModel n).2
        = (List.range n).map (fun j => OpenCall.mk (n - 1 - j) j (j + 1))
    ∧ pipeSourceChan n = n
    ∧ pipeSinkChan n = 0 := by
  have h0 := openGo_eq n 0
  simp only [Nat.zero_add] at h0
  have hc : (openModel n).1 = List.range (n + 1) := by
    show 0 :: (openGo n 0 1).1 = List.range (n + 1)
    rw [h0]
    show 0 :: List.range' 1 n = List.range (n + 1)
    rw [show List.range (n + 1) = List.range' 0 (n + 1) from by rw [List.range_eq_range']]
    rfl
  have hcalls : (openModel n).2
      = (List.range n).map (fun j => OpenCall.mk (n - 1 - j) j (j + 1)) := by
    show (openGo n 0 1).2 = _
    rw [h0]
  have hlen : (openModel n).1.length = n + 1 := by
    rw [hc, List.length_range]
  refine ⟨hlen, hc, hcalls, ?_, ?_⟩
  · rw [pipeSourceChan, hc]
    simp [List.getD_eq_getElem?_getD, List.length_range,
      List.getElem?_range (Nat.lt_succ_self n)]
  · rw [pipeSinkChan, hc]
    simp [List.getD_eq_getElem?_getD, List.getElem?_range (Nat.succ_pos n)]

/-- C8: every complete fan run (one that drains all nested producers, as
waiter.Wait requires before the shared output closes) delivers a
permutation of the union of the nested producers' Regions; each nested
producer's own Regions appear in their original relative order (the
cross-producer interleaving is whatever the schedule chose); and the
observable event sequence closes the shared channel only after all
deliveries. -/
theorem fan_merge_properties (ls : List (List Region)) (sched : List Nat)
    (out : List Region) (h : mergeRun ls sched = some out) :
    List.Perm out ls.join
    ∧ (∀ (j : Nat) (l : List Region), ls.get? j = some l → List.Sublist l out)
    ∧ fanWrite ls sched = some (out.map FanEv.deliver ++ [FanEv.close]) :=
  ⟨mergeRun_perm sched ls out h, mergeRun_sublist sched ls out h,
    by rw [fanWrite, h]⟩

/-- Witness for fan_merge_properties: producer A emits three Regions and
producer B two; an alternating schedule delivers all five, A's three and
B's two each in relative order, with close last. -/
theorem fan_merge_properties_witness :
    (mergeRun
        [[(⟨[1], 0⟩ : Region), ⟨[2], 10⟩, ⟨[3], 20⟩], [⟨[4], 100⟩, ⟨[5], 110⟩]]
        [0, 1, 0, 1, 0]
      = some [⟨[1], 0⟩, ⟨[4], 100⟩, ⟨[2], 10⟩, ⟨[5], 110⟩, ⟨[3], 20⟩])
    ∧ (List.Perm
        [(⟨[1], 0⟩ : Region), ⟨[4], 100⟩, ⟨[2], 10⟩, ⟨[5], 110⟩, ⟨[3], 20⟩]
        ([[(⟨[1], 0⟩ : Region), ⟨[2], 10⟩, ⟨[3], 20⟩],
          [⟨[4], 100⟩, ⟨[5], 110⟩]].join)
      ∧ (∀ (j : Nat) (l : List Region),
          ([[(⟨[1], 0⟩ : Region), ⟨[2], 10⟩, ⟨[3], 20⟩],
            [⟨[4], 100⟩, ⟨[5], 110⟩]].get? j) = some l →
          List.Sublist l
            [⟨[1], 0⟩, ⟨[4], 100⟩, ⟨[2], 10⟩, ⟨[5], 110⟩, ⟨[3], 20⟩])
      ∧ fanWrite
          [[(⟨[1], 0⟩ : Region), ⟨[2], 10⟩, ⟨[3], 20⟩], [⟨[4], 100⟩, ⟨[5], 110⟩]]
          [0, 1, 0, 1, 0]
        = some
          ([(⟨[1], 0⟩ : Region), ⟨[4], 100⟩, ⟨[2], 10⟩,
            ⟨[5], 110⟩, ⟨[3], 20⟩].map FanEv.deliver ++ [FanEv.close])) :=
  ⟨rfl,
    fan_merge_properties
      [[(⟨[1], 0⟩ : Region), ⟨[2], 10⟩, ⟨[3], 20⟩], [⟨[4], 100⟩, ⟨[5], 110⟩]]
      [0, 1, 0, 1, 0]
      [⟨[1], 0⟩, ⟨[4], 100⟩, ⟨[2], 10⟩, ⟨[5], 110⟩, ⟨[3], 20⟩] rfl⟩

/-- C9: Get never blocks — it dequeues the first queued buffer when one is
available and otherwise allocates a fresh bufferSize buffer, leaving the
queue empty; Put never blocks — it enqueues the buffer when the queue has
spare capacity and otherwise discards it, leaving the pool state unchanged. -/
theorem buffer_nonblocking_policy (c s : Nat) (b : List Nat)
    (q qf : List (List Nat)) (h1 : q.length < c) (h2 : ¬ qf.length < c) :
    pooledBuffer.Get ⟨[], c, s⟩ = (List.replicate s 0, ⟨[], c, s⟩)
    ∧ pooledBuffer.Get ⟨b :: q, c, s⟩ = (b, ⟨q, c, s⟩)
    ∧ pooledBuffer.Put ⟨q, c, s⟩ b = ⟨q ++ [b], c, s⟩
    ∧ pooledBuffer.Put ⟨qf, c, s⟩ b = ⟨qf, c, s⟩ := by
  refine ⟨rfl, rfl, ?_, ?_⟩
  · rw [pooledBuffer.Put, if_pos h1]
  · rw [pooledBuffer.Put, if_neg h2]

/-- Witness for buffer_nonblocking_policy: capacity 1, buffer size 2, an
empty queue (room to enqueue) and a full one-element queue (Put discards). -/
theorem buffer_nonblocking_policy_witness :
    (([] : List (List Nat)).length < 1 ∧ ¬ ([[9]] : List (List Nat)).length < 1)
    ∧ (pooledBuffer.Get ⟨[], 1, 2⟩ = (List.replicate 2 0, ⟨[], 1, 2⟩)
      ∧ pooledBuffer.Get ⟨[5] :: [], 1, 2⟩ = ([5], ⟨[], 1, 2⟩)
      ∧ pooledBuffer.Put ⟨[], 1, 2⟩ [5] = ⟨[] ++ [[5]], 1, 2⟩
      ∧ pooledBuffer.Put ⟨[[9]], 1, 2⟩ [5] = ⟨[[9]], 1, 2⟩) :=
  ⟨⟨by decide, by decide⟩,
    buffer_nonblocking_policy 1 2 [5] [] [[9]] (by decide) (by decide)⟩

/-- C10: whenever the single-writer sink exits without a positional-write
error — the input channel closed, or the cancellation signal observed
mid-stream — the one terminal value it places is nil, indistinguishable
from normal completion; a non-nil terminal value arises only from a write
failure. -/
theorem sink_nil_unless_write_error (cancel : Nat → Bool) (i : Nat)
    (regions : List Region) (oracle : List WriteStep)
    (p : List (Option Nat) × Bool)
    (h : sinkRun cancel i regions oracle = some p) :
    (p.2 = false → p.1 = [Option.none])
    ∧ (p.1 ≠ [Option.none] → p.2 = true) := by
  rcases sinkRun_eq_cases cancel regions i oracle p h with h2 | ⟨e, h2⟩ <;>
    subst h2 <;> simp

/-- Witness for sink_nil_unless_write_error: three regions are pending but
cancellation fires after the first is written; the sink still reports nil. -/
theorem sink_nil_unless_write_error_witness :
    (sinkRun (fun n => n == 1) 0 [⟨[1], 0⟩, ⟨[2], 1⟩, ⟨[3], 2⟩]
        [WriteStep.wrote 1]
      = some ([Option.none], false))
    ∧ (((([Option.none] : List (Option Nat)), false).2 = false →
        (([Option.none] : List (Option Nat)), false).1 = [Option.none])
      ∧ ((([Option.none] : List (Option Nat)), false).1 ≠ [Option.none] →
        (([Option.none] : List (Option Nat)), false).2 = true)) :=
  ⟨rfl,
    sink_nil_unless_write_error (fun n => n == 1) 0
      [⟨[1], 0⟩, ⟨[2], 1⟩, ⟨[3], 2⟩] [WriteStep.wrote 1]
      ([Option.none], false) rfl⟩
